import Mathlib

/-!
Verification development for the `tag_crawler` repository
(`src/tag_crawler.py`, `src/crawl.py`).

The Python source is shallowly embedded: the heading-tree builder, the
structural validator, the render-time ok/error tagging, the URL
normalization chain (a faithful model of the CPython `urllib.parse`
functions the source calls), and the BFS crawl loop are all translated
into executable Lean definitions, and the frozen claims about the
program are settled as theorems about those definitions.
-/

namespace TagCrawler

/-! ## Heading trees (`HeadingNode` class, `build_tree`)

`HeadingNode` from `tag_crawler.py` lines 17-46 (identical copy in
`crawl.py` lines 8-37): a node holds a level (0 for the synthetic root,
1-6 for h1-h6), a title, and an ordered list of children. -/

inductive HTree where
  | node (level : Nat) (title : String) (children : List HTree)
deriving Repr

def HTree.level : HTree → Nat
  | .node l _ _ => l

def HTree.title : HTree → String
  | .node _ t _ => t

def HTree.children : HTree → List HTree
  | .node _ _ cs => cs

/-- An open frame of `build_tree`'s stack: a `HeadingNode` that is still
on the Python `stack` and whose `children` list is still being extended
by `add_child`. -/
structure Frame where
  flevel : Nat
  ftitle : String
  fchildren : List HTree
deriving Repr

/-- Closing a frame yields the finished node (no further `add_child`). -/
def closeFrame (f : Frame) : HTree :=
  .node f.flevel f.ftitle f.fchildren

/-- `parent.add_child(child)` (`tag_crawler.py` line 46). -/
def addChild (g : Frame) (c : HTree) : Frame :=
  { g with fchildren := g.fchildren ++ [c] }

/-- One iteration of the loop body of `build_tree`
(`tag_crawler.py` lines 96-105): pop the stack while its top has level
`>= level` (each pop finalizes that node as a child of the node below
it), then attach and push the new heading.  The stack's head is the
Python `stack[-1]`; the bottom of the list is the synthetic root frame.
The two `[]` fallbacks model states the source cannot reach: Python
would raise `IndexError` on `stack[-1]` after popping the root, but the
root (level 0) is never popped because every heading level produced by
`get_headings` is in 1..6. -/
def insertH (fs : List Frame) (level : Nat) (title : String) : List Frame :=
  match fs with
  | [] => [⟨level, title, []⟩]
  | f :: rest =>
    if level ≤ f.flevel then
      match rest with
      | [] => [⟨level, title, []⟩]
      | g :: rest2 => insertH (addChild g (closeFrame f) :: rest2) level title
    else
      ⟨level, title, []⟩ :: f :: rest
termination_by fs.length

/-- The stack left by `build_tree`'s `for` loop, starting from
`stack = [root]` with `root = HeadingNode(0, "Root")`
(`tag_crawler.py` lines 93-94). -/
def buildStack (headings : List (Nat × String)) : List Frame :=
  headings.foldl (fun st p => insertH st p.1 p.2) [⟨0, "Root", []⟩]

/-- After the loop, every node still on the stack is (in Python) already
linked as a child of the node below it; returning `root` therefore
amounts to collapsing the stack from the top down. -/
def collapse (fs : List Frame) : Frame :=
  match fs with
  | [] => ⟨0, "Root", []⟩
  | [f] => f
  | f :: g :: rest => collapse (addChild g (closeFrame f) :: rest)
termination_by fs.length

/-- `build_tree(headings)` (`tag_crawler.py` lines 83-107): returns the
synthetic root (level 0, title "Root") of the constructed tree. -/
def build_tree (headings : List (Nat × String)) : HTree :=
  closeFrame (collapse (buildStack headings))

/-! ## Tree invariant predicate (claim C3)

`goodF pl ts` says: in the forest `ts` whose nodes have tree-parent
level `pl`, every node's level is strictly greater than its parent's
level, recursively. -/

def goodF : Nat → List HTree → Bool
  | _, [] => true
  | pl, .node l _ cs :: rest => decide (pl < l) && goodF l cs && goodF pl rest

/-- Every non-root node's level is strictly greater than its parent's. -/
def goodT (t : HTree) : Bool :=
  goodF t.level t.children

/-! ## Structural validator (claim C4)

`main`, `tag_crawler.py` lines 530-540: walk the heading sequence with a
level stack seeded `[0]`; a heading whose level exceeds `stack[-1] + 1`
is a structural error (record and `break`); otherwise pop while
`level <= stack[-1]`, then push `level`. -/

/-- `while stack and level <= stack[-1]: stack.pop()` (line 538). -/
def vPop (st : List Nat) (level : Nat) : List Nat :=
  match st with
  | [] => []
  | s :: rest => if level ≤ s then vPop rest level else s :: rest

/-- The validator loop; `st.headD 0` is `stack[-1]` (the stack is never
empty at that read: it starts as `[0]` and every iteration ends with a
push). -/
def validateAux : List Nat → List (Nat × String) → Bool
  | _, [] => false
  | st, (level, _) :: rest =>
    if st.headD 0 + 1 < level then true
    else validateAux (level :: vPop st level) rest

/-- The structural validation pass of `main`: `true` iff a structural
error was recorded for the page's heading sequence. -/
def validate (headings : List (Nat × String)) : Bool :=
  validateAux [0] headings

/-! ### Spec-side description of the validator (for claim C4)

Modelled from the spec's words in §4.7: walking the sequence with a
level stack seeded with sentinel 0, a structural error is present
exactly when some heading's level exceeds `top_of_stack + 1`, where the
stack evolves by popping while the top is ≥ the current level and then
pushing the current level. -/

/-- Spec's words: "pop while the stack top is ≥ the current level". -/
def specPop : List Nat → Nat → List Nat
  | [], _ => []
  | s :: rest, level => if level ≤ s then specPop rest level else s :: rest

/-- The spec's level stack after walking a prefix of the sequence
(pop-then-push for each heading, sentinel 0 at the start). -/
def specStackAt (pre : List (Nat × String)) : List Nat :=
  pre.foldl (fun st p => p.1 :: specPop st p.1) [0]

/-- Spec's words: some heading's level exceeds `top_of_stack + 1` at the
point where the walk reaches it. -/
def specViolation (headings : List (Nat × String)) : Prop :=
  ∃ i, ∃ h : i < headings.length,
    (specStackAt (headings.take i)).headD 0 + 1 < (headings.get ⟨i, h⟩).1

/-! ## Render-time ok/error tagging (`write_tree_html`, claims C5, C9)

`tag_crawler.py` lines 447-476: every node with `level != 0` is written
with css class `"ok"` if `level == parent_level + 1` and `"error"`
otherwise (appending to `errors_found` in the latter case); children are
always rendered with `parent_level = node.level`. -/

/-- Does `write_tree_html` append to `errors_found` anywhere in this
forest, whose nodes are rendered with parent level `pl`? -/
def renderErrF : Nat → List HTree → Bool
  | _, [] => false
  | pl, .node l _ cs :: rest =>
    (decide (l ≠ 0) && decide (l ≠ pl + 1)) || renderErrF l cs || renderErrF pl rest

/-- A rendered heading: level, title, css class, rendered children. -/
inductive CTree where
  | cnode (level : Nat) (title : String) (css : String) (children : List CTree)
deriving Repr

def CTree.css : CTree → String
  | .cnode _ _ c _ => c

/-- The `<p class="heading {css} ...">` forest `write_tree_html` writes
for a forest of nodes with parent level `pl`.  A node with `level = 0`
writes nothing itself (the virtual root) but its children are still
rendered, with `parent_level = node.level = 0`. -/
def renderF : Nat → List HTree → List CTree
  | _, [] => []
  | pl, .node l t cs :: rest =>
    if l ≠ 0 then
      .cnode l t (if l = pl + 1 then "ok" else "error") (renderF l cs) :: renderF pl rest
    else
      renderF l cs ++ renderF pl rest

/-- Pre-order list of css classes of a rendered forest. -/
def cssListF : List CTree → List String
  | [] => []
  | .cnode _ _ css cs :: rest => css :: (cssListF cs ++ cssListF rest)

/-- Modelled from claim C5's words: every non-root node is tagged "ok"
iff its level equals exactly its tree parent's level + 1 (children's
parent is the node itself; `pl` is the level of the parent node). -/
def specTagF : Nat → List HTree → List CTree
  | _, [] => []
  | pl, .node l t cs :: rest =>
    .cnode l t (if l = pl + 1 then "ok" else "error") (specTagF l cs) :: specTagF pl rest

/-! ## Per-page error flags and report colors (claim C9)

`main` (lines 521-542) leaves `data['error_flags'] = []` for a page
without headings and `[True]`/`[]` per the structural validation pass
otherwise; `generate_combined_html` (lines 382-393) appends `True` when
the render pass recorded any error (pages without headings are not
rendered), and the report entry (lines 402-414) is css class `"error"`
iff any flag is set. -/

def mainErrorFlags (hs : List (Nat × String)) : List Bool :=
  if hs.isEmpty then [] else if validate hs then [true] else []

def renderPassErr (hs : List (Nat × String)) : Bool :=
  renderErrF 0 [build_tree hs]

def pageErrorFlags (hs : List (Nat × String)) : List Bool :=
  mainErrorFlags hs ++
    (if hs.isEmpty then [] else if renderPassErr hs then [true] else [])

/-- The report color the code computes from the union of both passes. -/
def pageReportCss (hs : List (Nat × String)) : String :=
  if (pageErrorFlags hs).any id then "error" else "ok"

/-- The report color computed from the render pass alone (claim C9's
comparison point). -/
def renderOnlyCss (hs : List (Nat × String)) : String :=
  if !hs.isEmpty && renderPassErr hs then "error" else "ok"

/-! ## Proof-infrastructure views of the builder stack -/

/-- `[k, k-1, ..., 1, 0]`. -/
def consecList : Nat → List Nat
  | 0 => [0]
  | k + 1 => (k + 1) :: consecList k

/-- Render errors already recorded inside one open frame's subtrees. -/
def frameErr (f : Frame) : Bool := renderErrF f.flevel f.fchildren

def stackErr (fs : List Frame) : Bool := fs.any frameErr

/-- Render errors that will materialize when the open frames close:
each frame eventually becomes a child of the frame directly below it. -/
def adjErr : List Frame → Bool
  | f :: g :: rest =>
    (decide (f.flevel ≠ 0) && decide (f.flevel ≠ g.flevel + 1)) || adjErr (g :: rest)
  | _ => false

/-- All render errors of the finished tree, seen from a mid-build stack. -/
def pendErr (fs : List Frame) : Bool := stackErr fs || adjErr fs

/-- The level of the bottom (root) frame of the stack. -/
def lastLevel : List Frame → Option Nat
  | [] => none
  | [f] => some f.flevel
  | _ :: f :: rest => lastLevel (f :: rest)

/-! ## Model of `urllib.parse` (CPython `Lib/urllib/parse.py`)

The source resolves and normalizes URLs through `urljoin` and
`urlparse` from the standard library; those functions are modelled here
character-for-character (on `List Char`) after CPython's
implementation, restricted to `allow_fragments=True` and string inputs
(the bracket `ValueError` for IPv6 literals is not modelled — no claim
involves bracketed hosts). -/

abbrev Chars := List Char

/-- Characters of CPython's `scheme_chars`. -/
def isSchemeChar (c : Char) : Bool :=
  c.isAlpha || c.isDigit || c == '+' || c == '-' || c == '.'

/-- Split at the first occurrence of `d`: `some (before, after)`, or
`none` when `d` does not occur. -/
def splitAtFirst (d : Char) : Chars → Option (Chars × Chars)
  | [] => none
  | c :: cs =>
    if c = d then some ([], cs)
    else
      match splitAtFirst d cs with
      | none => none
      | some (a, b) => some (c :: a, b)

/-- `url.split(d, 1)` where a missing separator leaves the second
component empty (the way `urlsplit` uses it for `'#'` and `'?'`). -/
def splitFirst (d : Char) (l : Chars) : Chars × Chars :=
  match splitAtFirst d l with
  | none => (l, [])
  | some p => p

/-- `_splitnetloc`: the netloc extends to the first `'/'`, `'?'` or
`'#'`. -/
def spanNetloc : Chars → Chars × Chars
  | [] => ([], [])
  | c :: cs =>
    if c = '/' ∨ c = '?' ∨ c = '#' then ([], c :: cs)
    else
      let p := spanNetloc cs
      (c :: p.1, p.2)

/-- `str.split(d)` (all occurrences; `"".split(d) == [""]`). -/
def splitAll (d : Char) : Chars → List Chars
  | [] => [[]]
  | c :: cs =>
    if c = d then [] :: splitAll d cs
    else
      match splitAll d cs with
      | p :: ps => (c :: p) :: ps
      | [] => [[c]]

/-- `d.join(parts)`. -/
def joinChar (d : Char) : List Chars → Chars
  | [] => []
  | [a] => a
  | a :: b :: rest => a ++ d :: joinChar d (b :: rest)

/-- Result of `urlsplit`. -/
structure SplitRes where
  scheme : Chars
  netloc : Chars
  path : Chars
  query : Chars
  fragment : Chars
deriving Repr, DecidableEq

/-- CPython removes `'\t'`, `'\r'`, `'\n'` from the url before
splitting. -/
def dropUnsafe (l : Chars) : Chars :=
  l.filter fun c => !(c == '\t' || c == '\r' || c == '\n')

/-- A WHATWG C0-control or space character. -/
def isC0Space (c : Char) : Bool := c.toNat ≤ 32

/-- `str.strip` of C0-control/space characters. -/
def stripC0 (l : Chars) : Chars :=
  ((l.dropWhile isC0Space).reverse.dropWhile isC0Space).reverse

/-- The scheme detection of `urlsplit`: a valid scheme before the
first `':'` is split off (lowercased), otherwise the default scheme is
used and the url kept whole. -/
def schemeSplit (url defScheme : Chars) : Chars × Chars :=
  match splitAtFirst ':' url with
  | none => (defScheme, url)
  | some (a, b) =>
    if a.headD ' ' |>.isAlpha then
      if a.all isSchemeChar then (a.map Char.toLower, b) else (defScheme, url)
    else (defScheme, url)

/-- `if url[:2] == '//': netloc, url = _splitnetloc(url, 2)`. -/
def netlocSplit : Chars → Chars × Chars
  | '/' :: '/' :: r => spanNetloc r
  | r => ([], r)

/-- `urlsplit(url, scheme=defScheme, allow_fragments=True)` (CPython
3.11: the url is lstripped of C0-control/space characters, the default
scheme stripped on both sides, and tab/CR/LF removed everywhere). -/
def urlsplitC (url : Chars) (defScheme : Chars) : SplitRes :=
  let url := dropUnsafe (url.dropWhile isC0Space)
  let defScheme := dropUnsafe (stripC0 defScheme)
  let sr := schemeSplit url defScheme
  let nr := netlocSplit sr.2
  let fr := splitFirst '#' nr.2
  let pq := splitFirst '?' fr.1
  ⟨sr.1, nr.1, pq.1, pq.2, fr.2⟩

/-- `_splitparams`: split `;params` off the last path segment. -/
def splitparamsC (p : Chars) : Chars × Chars :=
  if p.contains '/' then
    let rev := splitFirst '/' p.reverse
    let lastSeg := rev.1.reverse
    let pre := ('/' :: rev.2).reverse
    match splitAtFirst ';' lastSeg with
    | none => (p, [])
    | some (s1, s2) => (pre ++ s1, s2)
  else
    match splitAtFirst ';' p with
    | none => (p, [])
    | some (s1, s2) => (s1, s2)

/-- Result of `urlparse`. -/
structure ParseRes where
  scheme : Chars
  netloc : Chars
  path : Chars
  params : Chars
  query : Chars
  fragment : Chars
deriving Repr, DecidableEq

/-- CPython 3.11's `uses_relative` scheme list. -/
def usesRelative : List Chars :=
  ["", "ftp", "http", "gopher", "nntp", "imap", "wais", "file", "https",
   "shttp", "mms", "prospero", "rtsp", "rtsps", "rtspu", "sftp", "svn",
   "svn+ssh", "ws", "wss"].map String.data

/-- CPython 3.11's `uses_netloc` scheme list. -/
def usesNetloc : List Chars :=
  ["", "ftp", "http", "gopher", "nntp", "telnet", "imap", "wais", "file",
   "mms", "https", "shttp", "snews", "prospero", "rtsp", "rtsps", "rtspu",
   "rsync", "svn", "svn+ssh", "sftp", "nfs", "git", "git+ssh", "ws",
   "wss"].map String.data

/-- CPython 3.11's `uses_params` scheme list. -/
def usesParams : List Chars :=
  ["", "ftp", "hdl", "prospero", "http", "imap", "https", "shttp", "rtsp",
   "rtsps", "rtspu", "sip", "sips", "mms", "sftp", "tel"].map String.data

/-- `urlparse(url, scheme=defScheme, allow_fragments=True)`. -/
def urlparseC (url : Chars) (defScheme : Chars) : ParseRes :=
  let s := urlsplitC url defScheme
  let pp : Chars × Chars :=
    if usesParams.contains s.scheme ∧ s.path.contains ';' then splitparamsC s.path
    else (s.path, [])
  ⟨s.scheme, s.netloc, pp.1, pp.2, s.query, s.fragment⟩

/-- `urlunsplit((scheme, netloc, url, query, fragment))` (CPython 3.11:
a scheme in `uses_netloc` gets `//` even with an empty netloc). -/
def urlunsplitC (scheme netloc path query fragment : Chars) : Chars :=
  let url :=
    if netloc ≠ [] ∨ (scheme ≠ [] ∧ usesNetloc.contains scheme ∧ path.take 2 ≠ ['/', '/']) then
      let p := if path ≠ [] ∧ path.headD ' ' ≠ '/' then '/' :: path else path
      '/' :: '/' :: (netloc ++ p)
    else path
  let url := if scheme ≠ [] then scheme ++ ':' :: url else url
  let url := if query ≠ [] then url ++ '?' :: query else url
  if fragment ≠ [] then url ++ '#' :: fragment else url

/-- `urlunparse((scheme, netloc, url, params, query, fragment))`. -/
def urlunparseC (scheme netloc path params query fragment : Chars) : Chars :=
  let p := if params ≠ [] then path ++ ';' :: params else path
  urlunsplitC scheme netloc p query fragment

/-- `base_parts[-1] != '' → del base_parts[-1]`. -/
def dropLastNonEmpty (parts : List Chars) : List Chars :=
  if parts.getLast? = some [] then parts else parts.dropLast

/-- `segments[1:-1] = filter(None, segments[1:-1])`. -/
def midFilter (segs : List Chars) : List Chars :=
  match segs with
  | [] => []
  | [a] => [a]
  | a :: rest =>
    a :: ((rest.dropLast.filter fun s => decide (s ≠ [])) ++ rest.drop (rest.length - 1))

/-- The `'..'`/`'.'` resolution loop of `urljoin`. -/
def resolveSegs (segs : List Chars) : List Chars :=
  segs.foldl
    (fun acc seg =>
      if seg = ['.', '.'] then acc.dropLast
      else if seg = ['.'] then acc
      else acc ++ [seg])
    []

/-- `urljoin(base, url, allow_fragments=True)`. -/
def urljoinC (base url : Chars) : Chars :=
  if base = [] then url
  else if url = [] then base
  else
    let B := urlparseC base []
    let U := urlparseC url B.scheme
    if U.scheme ≠ B.scheme ∨ ¬ usesRelative.contains U.scheme then url
    else if usesNetloc.contains U.scheme ∧ U.netloc ≠ [] then
      urlunparseC U.scheme U.netloc U.path U.params U.query U.fragment
    else
      let netloc := if usesNetloc.contains U.scheme then B.netloc else U.netloc
      if U.path = [] ∧ U.params = [] then
        let query := if U.query = [] then B.query else U.query
        urlunparseC U.scheme netloc B.path B.params query U.fragment
      else
        let baseParts := dropLastNonEmpty (splitAll '/' B.path)
        let segments :=
          if U.path.headD ' ' = '/' then splitAll '/' U.path
          else midFilter (baseParts ++ splitAll '/' U.path)
        let resolved := resolveSegs segments
        let resolved :=
          if segments.getLast? = some ['.'] ∨ segments.getLast? = some ['.', '.'] then
            resolved ++ [[]]
          else resolved
        let rp := joinChar '/' resolved
        urlunparseC U.scheme netloc (if rp = [] then ['/'] else rp) U.params U.query U.fragment

/-! ## The source's URL handling (`tag_crawler.py`) -/

/-- `href.split('#')[0]` (line 216). -/
def stripFragmentC (l : Chars) : Chars := (splitFirst '#' l).1

/-- `href.rstrip('/')` (line 218): remove all trailing slashes. -/
def rstripSlashC (l : Chars) : Chars :=
  (l.reverse.dropWhile fun c => c == '/').reverse

/-- Lines 214-218: resolve a raw href against the current URL, strip
the fragment, strip trailing slashes. -/
def resolveHref (currentUrl raw : String) : String :=
  ⟨rstripSlashC (stripFragmentC (urljoinC currentUrl.data raw.data))⟩

/-- `is_internal_link(link, base_domain)` (lines 128-140). -/
def is_internal_link (link baseDomain : String) : Bool :=
  let n := (urlparseC link.data []).netloc
  n == baseDomain.data || n == []

/-- Lines 223-226: `f"{parsed.scheme}://{parsed.netloc}{path}"` with an
empty path defaulting to `"/"` (note: query and params are dropped). -/
def normalizedOf (href : String) : String :=
  let p := urlparseC href.data []
  let path := if p.path = [] then ['/'] else p.path
  ⟨p.scheme ++ ':' :: '/' :: '/' :: (p.netloc ++ path)⟩

/-- The full normalization applied to a discovered link (claim C6's
`normalize`): resolve against the current URL, strip the fragment,
strip trailing slashes, rebuild as scheme://authority+path. -/
def normalizeLink (currentUrl raw : String) : String :=
  normalizedOf (resolveHref currentUrl raw)

/-- Shape of a well-behaved normalized URL (claim C6's amended
hypothesis): the string reparses into a nonempty lowercase valid
scheme, a nonempty delimiter-free netloc and a '/'-rooted path with no
params/query/fragment, rebuilds verbatim from those components, holds
no '#' or unsafe bytes, and its path is '/' or has no trailing
slash. -/
def goodNormalForm (v : String) : Bool :=
  let p := urlparseC v.data []
  decide (
    p.scheme ≠ [] ∧ p.netloc ≠ [] ∧
    p.params = [] ∧ p.query = [] ∧ p.fragment = [] ∧
    v.data = p.scheme ++ ':' :: '/' :: '/' :: (p.netloc ++ p.path) ∧
    v.data.contains '#' = false ∧
    (v.data.all fun c => !(c == '\t' || c == '\r' || c == '\n')) = true ∧
    p.scheme.all isSchemeChar = true ∧ (p.scheme.headD ' ').isAlpha = true ∧
    p.scheme.map Char.toLower = p.scheme ∧
    p.netloc.contains '/' = false ∧ p.netloc.contains '?' = false ∧
    p.path ≠ [] ∧ p.path.headD ' ' = '/' ∧
    (p.path = ['/'] ∨ p.path.getLast? ≠ some '/'))

/-! ## The crawler (`crawl_website`, `is_allowed`)

The network is an external collaborator (spec §1, §6): it is modelled
as an environment.  `robots` maps a robots.txt URL to `none` when
`RobotFileParser.read()` raises (fetch/parse failure) and otherwise to
the parsed policy's `can_fetch(USER_AGENT, ·)` decision function.
`fetch` maps a page URL to `none` when `requests.get`/
`raise_for_status` raises, and otherwise to the `href` attributes of
the page's anchor tags in document order. -/

structure CrawlEnv where
  robots : String → Option (String → Bool)
  fetch : String → Option (List String)

/-- `f"{parsed.scheme}://{parsed.netloc}/robots.txt"`
(`tag_crawler.py` line 154). -/
def robots_url_of (url : String) : String :=
  let p := urlparseC url.data []
  ⟨p.scheme ++ ':' :: '/' :: '/' :: (p.netloc ++ '/' :: "robots.txt".data)⟩

/-- `is_allowed(url, USER_AGENT)` (`tag_crawler.py` lines 142-164):
try to read the domain's robots.txt and query it; any exception from
the read/query yields `False` ("defaults to disallow"). -/
def is_allowed (env : CrawlEnv) (url : String) : Bool :=
  match env.robots (robots_url_of url) with
  | none => false
  | some canFetch => canFetch url

/-- The mutable crawl state: the `visited` set (as its insertion-order
list: Python only adds, never removes, so a list without duplicates is
an exact model) and the BFS `queue` of `(url, depth)` entries. -/
structure CrawlState where
  visited : List String
  queue : List (String × Nat)
deriving Repr, DecidableEq

/-- Observable actions of one loop iteration (used to state the
claims about what is and is not fetched). -/
inductive CrawlEvent where
  | skipDepth (url : String) (depth : Nat)
  | robotsQuery (url : String) (allowed : Bool)
  | fetchFail (url : String) (depth : Nat)
  | fetched (url : String) (depth : Nat)
deriving Repr, DecidableEq

/-- The body of the link-extraction loop (`tag_crawler.py` lines
211-230) for one `href`, threading the pair (visited, queue). -/
def processLink (currentUrl baseDomain : String) (depth : Nat)
    (acc : List String × List (String × Nat)) (raw : String) :
    List String × List (String × Nat) :=
  let href := resolveHref currentUrl raw
  if is_internal_link href baseDomain then
    let n := normalizedOf href
    if acc.1.contains n then acc
    else (acc.1 ++ [n], acc.2 ++ [(n, depth + 1)])
  else acc

/-- One iteration of the `while queue and len(visited) < max_pages`
loop (`tag_crawler.py` lines 187-233): `none` when the loop condition
fails (the crawl terminates), otherwise the next state and the events
of the iteration. -/
def crawlStep (env : CrawlEnv) (maxPages maxDepth : Nat) (baseDomain : String)
    (st : CrawlState) : Option (CrawlState × List CrawlEvent) :=
  match st.queue with
  | [] => none
  | (url, depth) :: rest =>
    if st.visited.length < maxPages then
      if maxDepth < depth then
        some ({ visited := st.visited, queue := rest }, [.skipDepth url depth])
      else if is_allowed env url then
        match env.fetch url with
        | none =>
          some ({ visited := st.visited, queue := rest },
            [.robotsQuery url true, .fetchFail url depth])
        | some hrefs =>
          let vq := hrefs.foldl (processLink url baseDomain depth) (st.visited, rest)
          some ({ visited := vq.1, queue := vq.2 },
            [.robotsQuery url true, .fetched url depth])
      else
        some ({ visited := st.visited, queue := rest }, [.robotsQuery url false])
    else none

/-- Run the crawl loop for at most `fuel` iterations.  Returns the
final state, the concatenated events, and whether the loop actually
terminated (rather than running out of fuel). -/
def crawlRun (env : CrawlEnv) (maxPages maxDepth : Nat) (baseDomain : String) :
    Nat → CrawlState → CrawlState × List CrawlEvent × Bool
  | 0, st => (st, [], false)
  | fuel + 1, st =>
    match crawlStep env maxPages maxDepth baseDomain st with
    | none => (st, [], true)
    | some (st', evs) =>
      let r := crawlRun env maxPages maxDepth baseDomain fuel st'
      (r.1, evs ++ r.2.1, r.2.2)

/-- `crawl_website(base_url, max_pages, max_depth, delay)`
(`tag_crawler.py` lines 166-235): seed the visited set and queue with
the raw `base_url` (lines 179-182), take the base domain from its
netloc (lines 184-185), and run the loop.  The politeness delay has no
observable effect on the computed state. -/
def crawl_website (env : CrawlEnv) (base_url : String)
    (maxPages maxDepth fuel : Nat) : CrawlState × List CrawlEvent × Bool :=
  let baseDomain : String := ⟨(urlparseC base_url.data []).netloc⟩
  crawlRun env maxPages maxDepth baseDomain fuel
    { visited := [base_url], queue := [(base_url, 0)] }

/-! ## Concrete environments for the counterexamples and witnesses -/

/-- robots.txt always readable and permissive; the seed page
`https://ex.com/a` links to `/b` and `/c`; every other page has no
links. -/
def envTwoLinks : CrawlEnv where
  robots := fun _ => some fun _ => true
  fetch := fun u => if u = "https://ex.com/a" then some ["/b", "/c"] else some []

/-- robots.txt unreachable everywhere (every read raises). -/
def envNoRobots : CrawlEnv where
  robots := fun _ => none
  fetch := fun _ => some []

/-- The page at the raw seed `https://ex.com/about/` links back to
itself via `/about/`, whose normalized form differs from the seed. -/
def envSelfLink : CrawlEnv where
  robots := fun _ => some fun _ => true
  fetch := fun u => if u = "https://ex.com/about/" then some ["/about/"] else some []

/-! ## Invariants used by the proofs (definitions only; proofs below) -/

/-- Invariant of `build_tree`'s stack: frame levels strictly decrease
from top to bottom, each frame's finished children satisfy the level
invariant, and the bottom frame is the level-0 root. -/
def StackOk (fs : List Frame) : Prop :=
  List.Chain' (fun a b => b < a) (fs.map Frame.flevel) ∧
  (∀ f ∈ fs, goodF f.flevel f.fchildren = true) ∧
  lastLevel fs = some 0

/-- Invariant of a violation-free build: the stack levels are exactly
`[k, k-1, ..., 0]` and no render error has been recorded. -/
def CleanStack (k : Nat) (fs : List Frame) : Prop :=
  fs.map Frame.flevel = consecList k ∧ stackErr fs = false

/-- All node levels in the forest are ≥ 1. -/
def levelsPosF : List HTree → Bool
  | [] => true
  | .node l _ cs :: rest => decide (1 ≤ l) && levelsPosF cs && levelsPosF rest

/-! # Theorems -/

theorem goodF_append (pl : Nat) (xs ys : List HTree) :
    goodF pl (xs ++ ys) = (goodF pl xs && goodF pl ys) := by
  induction xs with
  | nil => simp [goodF]
  | cons x rest ih =>
    cases x with
    | node l t cs => simp [goodF, ih, Bool.and_assoc]

theorem insertH_pop {f g : Frame} {rest : List Frame} {l : Nat} {t : String}
    (h : l ≤ f.flevel) :
    insertH (f :: g :: rest) l t = insertH (addChild g (closeFrame f) :: rest) l t := by
  rw [insertH.eq_def]
  simp [h]

theorem insertH_push {f : Frame} {rest : List Frame} {l : Nat} {t : String}
    (h : f.flevel < l) :
    insertH (f :: rest) l t = ⟨l, t, []⟩ :: f :: rest := by
  rw [insertH.eq_def]
  simp [Nat.not_le.mpr h]

theorem collapse_shift (f g : Frame) (rest : List Frame) :
    collapse (f :: g :: rest) = collapse (addChild g (closeFrame f) :: rest) := by
  rw [collapse.eq_def]

theorem stackOk_shift {f g : Frame} {rest : List Frame}
    (hok : StackOk (f :: g :: rest)) :
    StackOk (addChild g (closeFrame f) :: rest) := by
  obtain ⟨hch, hgood, hlast⟩ := hok
  simp only [List.map_cons, List.chain'_cons] at hch
  refine ⟨?_, ?_, ?_⟩
  · simpa [addChild] using hch.2
  · intro f' hmem
    rcases List.mem_cons.mp hmem with rfl | hmem
    · have hg := hgood g (by simp)
      have hf := hgood f (by simp)
      simp [addChild, goodF_append, hg]
      simp [goodF, closeFrame, hch.1, hf]
    · exact hgood f' (by simp [hmem])
  · cases rest with
    | nil => simpa [lastLevel, addChild] using hlast
    | cons r rs => simpa [lastLevel] using hlast

theorem insertH_stackOk :
    ∀ (fs : List Frame) (l : Nat) (t : String), 1 ≤ l → StackOk fs →
      StackOk (insertH fs l t) := by
  intro fs l t
  induction fs, l, t using insertH.induct with
  | case1 l t =>
    intro _ hok
    exact absurd hok.2.2 (by simp [lastLevel])
  | case2 l t g hle =>
    intro hl hok
    have : g.flevel = 0 := by simpa [lastLevel] using hok.2.2
    omega
  | case3 l t g hle g1 rest2 ih =>
    intro hl hok
    rw [insertH_pop hle]
    exact ih hl (stackOk_shift hok)
  | case4 l t g rest2 hgt =>
    intro hl hok
    rw [insertH_push (Nat.not_le.mp hgt)]
    obtain ⟨hch, hgood, hlast⟩ := hok
    refine ⟨?_, ?_, ?_⟩
    · simp only [List.map_cons, List.chain'_cons]
      exact ⟨Nat.not_le.mp hgt, hch⟩
    · intro f' hmem
      rcases List.mem_cons.mp hmem with rfl | hmem
      · simp [goodF]
      · exact hgood f' hmem
    · cases rest2 with
      | nil => simpa [lastLevel] using hlast
      | cons r rs => simpa [lastLevel] using hlast

theorem foldl_insertH_stackOk :
    ∀ (hs : List (Nat × String)) (fs : List Frame), StackOk fs →
      (∀ p ∈ hs, 1 ≤ p.1) →
      StackOk (hs.foldl (fun st p => insertH st p.1 p.2) fs) := by
  intro hs
  induction hs with
  | nil => intro fs h _; simpa using h
  | cons p rest ih =>
    intro fs h hl
    simp only [List.foldl_cons]
    exact ih _ (insertH_stackOk fs p.1 p.2 (hl p (by simp)) h)
      (fun q hq => hl q (by simp [hq]))

theorem rootFrame_stackOk : StackOk [⟨0, "Root", []⟩] := by
  refine ⟨by simp, ?_, by simp [lastLevel]⟩
  intro f hf
  simp at hf
  subst hf
  simp [goodF]

theorem buildStack_stackOk (hs : List (Nat × String))
    (h : ∀ p ∈ hs, 1 ≤ p.1) : StackOk (buildStack hs) :=
  foldl_insertH_stackOk hs _ rootFrame_stackOk h

theorem collapse_ok :
    ∀ fs, StackOk fs →
      (collapse fs).flevel = 0 ∧
        goodF (collapse fs).flevel (collapse fs).fchildren = true := by
  intro fs
  induction fs using collapse.induct with
  | case1 =>
    intro hok
    exact absurd hok.2.2 (by simp [lastLevel])
  | case2 f =>
    intro hok
    have h0 : f.flevel = 0 := by simpa [lastLevel] using hok.2.2
    exact ⟨by simp [collapse, h0], by simp [collapse, hok.2.1 f (by simp)]⟩
  | case3 f g rest ih =>
    intro hok
    rw [collapse_shift]
    exact ih (stackOk_shift hok)

/-- C3: for every input heading sequence with levels in 1..6 (what
`get_headings` can produce), every non-root node of the tree returned
by `build_tree` has a level strictly greater than its parent's level. -/
theorem C3_tree_invariant (hs : List (Nat × String))
    (h : ∀ p ∈ hs, 1 ≤ p.1 ∧ p.1 ≤ 6) : goodT (build_tree hs) = true := by
  have hok := buildStack_stackOk hs (fun p hp => (h p hp).1)
  have hc := collapse_ok (buildStack hs) hok
  simp [build_tree, goodT, closeFrame, HTree.level, HTree.children, hc.2]

theorem C3_tree_invariant_w :
    goodT (build_tree [(2, "X"), (1, "Y"), (3, "Z"), (3, "W")]) = true :=
  C3_tree_invariant [(2, "X"), (1, "Y"), (3, "Z"), (3, "W")] (by decide)

theorem vPop_eq_specPop : ∀ (st : List Nat) (l : Nat), vPop st l = specPop st l := by
  intro st l
  induction st with
  | nil => rfl
  | cons s rest ih => simp [vPop, specPop, ih]

theorem validateAux_iff :
    ∀ (hs : List (Nat × String)) (st : List Nat),
      validateAux st hs = true ↔
        ∃ i, ∃ h : i < hs.length,
          ((hs.take i).foldl (fun s p => p.1 :: specPop s p.1) st).headD 0 + 1 <
            (hs.get ⟨i, h⟩).1 := by
  intro hs
  induction hs with
  | nil => intro st; simp [validateAux]
  | cons p rest ih =>
    intro st
    obtain ⟨l, t⟩ := p
    by_cases hv : st.headD 0 + 1 < l
    · simp only [validateAux, if_pos hv]
      constructor
      · intro _
        exact ⟨0, by simp, by simpa using hv⟩
      · intro _; trivial
    · simp only [validateAux, if_neg hv]
      rw [ih (l :: vPop st l), vPop_eq_specPop]
      constructor
      · rintro ⟨i, h, hc⟩
        refine ⟨i + 1, by simpa using Nat.succ_lt_succ h, ?_⟩
        simpa using hc
      · rintro ⟨i, h, hc⟩
        cases i with
        | zero => exact absurd (by simpa using hc) hv
        | succ j =>
          refine ⟨j, by simpa using Nat.lt_of_succ_lt_succ h, ?_⟩
          simpa using hc

/-- C4: the structural validation pass of `main` returns true exactly
when, walking the sequence with a level stack seeded with sentinel 0
(popping while the top is ≥ the current level, then pushing), some
heading's level exceeds `top_of_stack + 1`; in particular for
`[(1,"A"),(3,"B")]` it returns true while `build_tree` still nests `B`
under `A` without rejecting it. -/
theorem C4_validator_characterization :
    (∀ hs, validate hs = true ↔ specViolation hs) ∧
    validate [(1, "A"), (3, "B")] = true ∧
    build_tree [(1, "A"), (3, "B")] =
      HTree.node 0 "Root" [HTree.node 1 "A" [HTree.node 3 "B" []]] := by
  refine ⟨?_, by decide, ?_⟩
  · intro hs
    rw [validate, specViolation]
    exact validateAux_iff hs [0]
  · simp [build_tree, buildStack, insertH, collapse, addChild, closeFrame]

theorem goodF_levelsPos : ∀ (pl : Nat) (ts : List HTree),
    goodF pl ts = true → levelsPosF ts = true := by
  intro pl ts
  induction pl, ts using goodF.induct with
  | case1 pl => intro _; simp [levelsPosF]
  | case2 pl l t cs rest ih1 ih2 =>
    intro h
    simp only [goodF, Bool.and_eq_true, decide_eq_true_eq] at h
    simp only [levelsPosF, Bool.and_eq_true, decide_eq_true_eq]
    exact ⟨⟨by omega, ih1 h.1.2⟩, ih2 h.2⟩

theorem renderF_eq_specTagF : ∀ (pl : Nat) (ts : List HTree),
    levelsPosF ts = true → renderF pl ts = specTagF pl ts := by
  intro pl ts
  induction pl, ts using renderF.induct with
  | case1 pl => intro _; simp [renderF, specTagF]
  | case2 pl l t cs rest hne ihc ihr =>
    intro h
    simp only [levelsPosF, Bool.and_eq_true, decide_eq_true_eq] at h
    simp only [renderF, specTagF, if_pos hne]
    rw [ihc h.1.2, ihr h.2]
  | case3 pl l t cs rest heq ihc ihr =>
    intro h
    simp only [levelsPosF, Bool.and_eq_true, decide_eq_true_eq] at h
    omega

/-- C5 amended: at render time every non-root node is tagged "ok" iff
its level equals exactly its tree parent's level + 1 (`renderF` agrees
with the parent-level tagging rule `specTagF` on every built tree);
same-level siblings sharing one parent are flagged as errors exactly
when their common level differs from parent level + 1 — not in
general. -/
theorem C5_amended_render_rule (hs : List (Nat × String))
    (h : ∀ p ∈ hs, 1 ≤ p.1 ∧ p.1 ≤ 6) :
    renderF 0 [build_tree hs] = specTagF 0 (build_tree hs).children ∧
    cssListF (renderF 0 [build_tree [(1, "A"), (2, "B"), (2, "C")]]) =
      ["ok", "ok", "ok"] ∧
    cssListF (renderF 0 [build_tree [(1, "A"), (3, "B"), (3, "C")]]) =
      ["ok", "error", "error"] := by
  refine ⟨?_, ?_, ?_⟩
  · have hok := buildStack_stackOk hs (fun p hp => (h p hp).1)
    obtain ⟨h0, hgood⟩ := collapse_ok (buildStack hs) hok
    have hpos := goodF_levelsPos _ _ hgood
    have hbt : build_tree hs =
        HTree.node 0 (collapse (buildStack hs)).ftitle
          (collapse (buildStack hs)).fchildren := by
      rw [build_tree, closeFrame, h0]
    rw [hbt]
    simp only [HTree.children, renderF]
    simp only [ne_eq, not_true_eq_false, if_neg, List.append_nil, ite_false]
    exact renderF_eq_specTagF 0 _ hpos
  · simp [build_tree, buildStack, insertH, collapse, addChild, closeFrame,
      renderF, cssListF]
  · simp [build_tree, buildStack, insertH, collapse, addChild, closeFrame,
      renderF, cssListF]

theorem C5_amended_render_rule_w :
    renderF 0 [build_tree [(1, "A"), (2, "B"), (2, "C")]] =
      specTagF 0 (build_tree [(1, "A"), (2, "B"), (2, "C")]).children :=
  (C5_amended_render_rule [(1, "A"), (2, "B"), (2, "C")] (by decide)).1

/-- C5 counterexample: in the tree built from `[(1,A),(2,B),(2,C)]`,
`B` and `C` are two equal-level nodes sharing the one parent `A`, yet
the render pass tags them "ok" — the render rule does not flag
same-level siblings as errors. -/
theorem C5_counterexample :
    build_tree [(1, "A"), (2, "B"), (2, "C")] =
      HTree.node 0 "Root"
        [HTree.node 1 "A" [HTree.node 2 "B" [], HTree.node 2 "C" []]] ∧
    cssListF (renderF 0 [build_tree [(1, "A"), (2, "B"), (2, "C")]]) =
      ["ok", "ok", "ok"] := by
  constructor
  · simp [build_tree, buildStack, insertH, collapse, addChild, closeFrame]
  · simp [build_tree, buildStack, insertH, collapse, addChild, closeFrame,
      renderF, cssListF]

theorem renderErrF_append (pl : Nat) (xs ys : List HTree) :
    renderErrF pl (xs ++ ys) = (renderErrF pl xs || renderErrF pl ys) := by
  induction xs with
  | nil => simp [renderErrF]
  | cons x rest ih =>
    cases x with
    | node l t cs => simp [renderErrF, ih, Bool.or_assoc]

theorem adjErr_addChild (g : Frame) (x : HTree) (rest : List Frame) :
    adjErr (addChild g x :: rest) = adjErr (g :: rest) := by
  cases rest with
  | nil => rfl
  | cons r rs => simp [adjErr, addChild]

theorem frameErr_addChild_close (g f : Frame) :
    frameErr (addChild g (closeFrame f)) =
      (frameErr g ||
        ((decide (f.flevel ≠ 0) && decide (f.flevel ≠ g.flevel + 1)) || frameErr f)) := by
  simp [frameErr, addChild, renderErrF_append, closeFrame, renderErrF]

theorem pendErr_shift (f g : Frame) (rest : List Frame) :
    pendErr (f :: g :: rest) = pendErr (addChild g (closeFrame f) :: rest) := by
  have e1 : pendErr (f :: g :: rest) =
      ((frameErr f || (frameErr g || stackErr rest)) ||
        ((decide (f.flevel ≠ 0) && decide (f.flevel ≠ g.flevel + 1)) ||
          adjErr (g :: rest))) := by
    simp [pendErr, stackErr, adjErr]
  have e2 : pendErr (addChild g (closeFrame f) :: rest) =
      ((frameErr g ||
          ((decide (f.flevel ≠ 0) && decide (f.flevel ≠ g.flevel + 1)) || frameErr f) ||
        stackErr rest) || adjErr (g :: rest)) := by
    simp only [pendErr, stackErr, List.any_cons, frameErr_addChild_close,
      adjErr_addChild]
  rw [e1, e2]
  generalize frameErr f = a
  generalize frameErr g = b
  generalize stackErr rest = s
  generalize (decide (f.flevel ≠ 0) && decide (f.flevel ≠ g.flevel + 1)) = c
  generalize adjErr (g :: rest) = d
  cases a <;> cases b <;> cases s <;> cases c <;> cases d <;> rfl



theorem lastLevel_shift (f g : Frame) (rest : List Frame) :
    lastLevel (addChild g (closeFrame f) :: rest) = lastLevel (g :: rest) := by
  cases rest with
  | nil => simp [lastLevel, addChild]
  | cons r rs => simp [lastLevel]

theorem collapse_pendErr :
    ∀ fs, lastLevel fs = some 0 →
      renderErrF 0 [closeFrame (collapse fs)] = pendErr fs := by
  intro fs
  induction fs using collapse.induct with
  | case1 => intro h; simp [lastLevel] at h
  | case2 f =>
    intro h
    have h0 : f.flevel = 0 := by simpa [lastLevel] using h
    simp [collapse, closeFrame, renderErrF, pendErr, stackErr, adjErr,
      frameErr, h0]
  | case3 f g rest ih =>
    intro h
    rw [collapse_shift, pendErr_shift]
    exact ih (by rwa [lastLevel_shift])

theorem insertH_lastLevel :
    ∀ (fs : List Frame) (l : Nat) (t : String), 1 ≤ l →
      lastLevel fs = some 0 → lastLevel (insertH fs l t) = some 0 := by
  intro fs l t
  induction fs, l, t using insertH.induct with
  | case1 l t => intro _ h; simp [lastLevel] at h
  | case2 l t g hle =>
    intro hl h
    have : g.flevel = 0 := by simpa [lastLevel] using h
    omega
  | case3 l t g hle g1 rest2 ih =>
    intro hl h
    rw [insertH_pop hle]
    exact ih hl (by rwa [lastLevel_shift])
  | case4 l t g rest2 hgt =>
    intro hl h
    rw [insertH_push (Nat.not_le.mp hgt)]
    simpa [lastLevel] using h

theorem pendErr_push (fr : Frame) (fs : List Frame) (h : pendErr fs = true) :
    pendErr (fr :: fs) = true := by
  cases fs with
  | nil => simp [pendErr, stackErr, adjErr] at h
  | cons g rest =>
    simp only [pendErr, stackErr, List.any_cons, adjErr,
      Bool.or_eq_true] at h ⊢
    rcases h with (h | h) | h
    · exact Or.inl (Or.inr (Or.inl h))
    · exact Or.inl (Or.inr (Or.inr h))
    · exact Or.inr (Or.inr h)

theorem insertH_pendErr_mono :
    ∀ (fs : List Frame) (l : Nat) (t : String), 1 ≤ l →
      lastLevel fs = some 0 → pendErr fs = true →
      pendErr (insertH fs l t) = true := by
  intro fs l t
  induction fs, l, t using insertH.induct with
  | case1 l t => intro _ h _; simp [lastLevel] at h
  | case2 l t g hle =>
    intro hl h _
    have : g.flevel = 0 := by simpa [lastLevel] using h
    omega
  | case3 l t g hle g1 rest2 ih =>
    intro hl h hp
    rw [insertH_pop hle]
    exact ih hl (by rwa [lastLevel_shift]) (by rwa [pendErr_shift] at hp)
  | case4 l t g rest2 hgt =>
    intro hl h hp
    rw [insertH_push (Nat.not_le.mp hgt)]
    exact pendErr_push _ _ hp



theorem consecList_ne_nil (k : Nat) : consecList k ≠ [] := by
  cases k <;> simp [consecList]

theorem consec_head (k : Nat) : (consecList k).headD 0 = k := by
  cases k <;> rfl

theorem consec_head_eq {g : Frame} {rest : List Frame} {k : Nat}
    (h : (g :: rest).map Frame.flevel = consecList k) : g.flevel = k := by
  cases k with
  | zero => simp [consecList] at h; exact h.1
  | succ k' => simp [consecList] at h; exact h.1

theorem adjErr_consec : ∀ (fs : List Frame) (k : Nat),
    fs.map Frame.flevel = consecList k → adjErr fs = false := by
  intro fs
  induction fs with
  | nil => intro k h; exact absurd h.symm (consecList_ne_nil k)
  | cons f rest ih =>
    intro k h
    cases rest with
    | nil => rfl
    | cons g rs =>
      cases k with
      | zero => simp [consecList] at h
      | succ k' =>
        simp only [consecList, List.map_cons, List.cons.injEq] at h
        have hg : g.flevel = k' := consec_head_eq h.2
        simp only [adjErr]
        rw [ih k' h.2]
        simp [h.1, hg]

theorem clean_pendErr {k : Nat} {fs : List Frame} (h : CleanStack k fs) :
    pendErr fs = false := by
  simp [pendErr, h.2, adjErr_consec fs k h.1]

theorem consec_lastLevel : ∀ (fs : List Frame) (k : Nat),
    fs.map Frame.flevel = consecList k → lastLevel fs = some 0 := by
  intro fs
  induction fs with
  | nil => intro k h; exact absurd h.symm (consecList_ne_nil k)
  | cons f rest ih =>
    intro k h
    cases rest with
    | nil =>
      cases k with
      | zero => simp [consecList] at h; simp [lastLevel, h]
      | succ k' =>
        simp [consecList] at h
        exact absurd h.2 (consecList_ne_nil k')
    | cons g rs =>
      cases k with
      | zero => simp [consecList] at h
      | succ k' =>
        simp only [consecList, List.map_cons, List.cons.injEq] at h
        rw [lastLevel]
        exact ih k' h.2

theorem insertH_clean :
    ∀ (fs : List Frame) (l : Nat) (t : String), ∀ k : Nat,
      CleanStack k fs → 1 ≤ l → l ≤ k + 1 →
      CleanStack l (insertH fs l t) := by
  intro fs l t
  induction fs, l, t using insertH.induct with
  | case1 l t =>
    intro k hc _ _
    exact absurd hc.1.symm (consecList_ne_nil k)
  | case2 l t g hle =>
    intro k hc hl hlk
    have hg : g.flevel = k := consec_head_eq hc.1
    cases k with
    | zero => omega
    | succ k' =>
      have := hc.1
      simp only [consecList, List.map_cons, List.cons.injEq] at this
      exact absurd this.2.symm (consecList_ne_nil k')
  | case3 l t g hle g1 rest2 ih =>
    intro k hc hl hlk
    rw [insertH_pop hle]
    obtain ⟨hmap, herr⟩ := hc
    have hg : g.flevel = k := consec_head_eq hmap
    cases k with
    | zero => omega
    | succ k' =>
      simp only [consecList, List.map_cons, List.cons.injEq] at hmap
      have hrest : (g1 :: rest2).map Frame.flevel = consecList k' := hmap.2
      have hg1 : g1.flevel = k' := consec_head_eq hrest
      simp only [stackErr, List.any_cons, Bool.or_eq_false_iff] at herr
      have hclean : CleanStack k' (addChild g1 (closeFrame g) :: rest2) := by
        constructor
        · simpa [addChild] using hrest
        · simp only [stackErr, List.any_cons, Bool.or_eq_false_iff]
          refine ⟨?_, herr.2.2⟩
          rw [frameErr_addChild_close]
          simp [herr.1, herr.2.1, hg, hg1]
      exact ih k' hclean hl (by omega)
  | case4 l t g rest2 hgt =>
    intro k hc hl hlk
    rw [insertH_push (Nat.not_le.mp hgt)]
    obtain ⟨hmap, herr⟩ := hc
    have hg : g.flevel = k := consec_head_eq hmap
    have hlk' : l = k + 1 := by omega
    constructor
    · subst hlk'
      show (k + 1) :: (g :: rest2).map Frame.flevel = consecList (k + 1)
      rw [show consecList (k + 1) = (k + 1) :: consecList k from rfl, hmap]
    · simp only [stackErr, List.any_cons, Bool.or_eq_false_iff]
      exact ⟨by simp [frameErr, renderErrF], by simpa [stackErr] using herr⟩

theorem vPop_consec : ∀ (k l : Nat), 1 ≤ l → l ≤ k + 1 →
    vPop (consecList k) l = consecList (l - 1) := by
  intro k
  induction k with
  | zero =>
    intro l hl hlk
    have : l = 1 := by omega
    subst this
    rfl
  | succ k' ih =>
    intro l hl hlk
    by_cases hle : l ≤ k' + 1
    · rw [show consecList (k' + 1) = (k' + 1) :: consecList k' from rfl]
      rw [vPop, if_pos hle]
      exact ih l hl hle
    · have : l = k' + 2 := by omega
      subst this
      rw [show consecList (k' + 1) = (k' + 1) :: consecList k' from rfl]
      rw [vPop, if_neg (by omega)]
      rfl

theorem foldl_pendErr_mono :
    ∀ (hs : List (Nat × String)) (fs : List Frame),
      (∀ p ∈ hs, 1 ≤ p.1) → lastLevel fs = some 0 → pendErr fs = true →
      pendErr (hs.foldl (fun st p => insertH st p.1 p.2) fs) = true := by
  intro hs
  induction hs with
  | nil => intro fs _ _ h; simpa using h
  | cons p rest ih =>
    intro fs hl hlast hp
    simp only [List.foldl_cons]
    exact ih _ (fun q hq => hl q (by simp [hq]))
      (insertH_lastLevel fs p.1 p.2 (hl p (by simp)) hlast)
      (insertH_pendErr_mono fs p.1 p.2 (hl p (by simp)) hlast hp)

theorem validate_fold :
    ∀ (hs : List (Nat × String)) (k : Nat) (fs : List Frame),
      (∀ p ∈ hs, 1 ≤ p.1) → CleanStack k fs →
      validateAux (consecList k) hs =
        pendErr (hs.foldl (fun st p => insertH st p.1 p.2) fs) := by
  intro hs
  induction hs with
  | nil =>
    intro k fs _ hc
    simp [validateAux, clean_pendErr hc]
  | cons p rest ih =>
    intro k fs hl hc
    obtain ⟨l, t⟩ := p
    have h1 : (1 : Nat) ≤ l := hl (l, t) (by simp)
    have hlast0 : lastLevel fs = some 0 := consec_lastLevel fs k hc.1
    by_cases hv : k + 1 < l
    · rw [validateAux, if_pos (by rwa [consec_head])]
      obtain ⟨g, rest2, rfl⟩ : ∃ g rest2, fs = g :: rest2 := by
        cases fs with
        | nil => exact absurd hc.1.symm (consecList_ne_nil k)
        | cons g rest2 => exact ⟨g, rest2, rfl⟩
      have hg : g.flevel = k := consec_head_eq hc.1
      have hpush : insertH (g :: rest2) l t = ⟨l, t, []⟩ :: g :: rest2 :=
        insertH_push (by omega)
      have hpe : pendErr (insertH (g :: rest2) l t) = true := by
        rw [hpush]
        simp only [pendErr, adjErr, Bool.or_eq_true]
        refine Or.inr (Or.inl ?_)
        simp only [Bool.and_eq_true, decide_eq_true_eq]
        omega
      simp only [List.foldl_cons]
      exact (foldl_pendErr_mono rest _ (fun q hq => hl q (by simp [hq]))
        (insertH_lastLevel _ l t h1 hlast0) hpe).symm
    · rw [validateAux, if_neg (by rwa [consec_head])]
      have hst : (l :: vPop (consecList k) l) = consecList l := by
        rw [vPop_consec k l h1 (by omega)]
        cases l with
        | zero => omega
        | succ l' => rfl
      rw [hst]
      simp only [List.foldl_cons]
      exact ih l (insertH fs l t) (fun q hq => hl q (by simp [hq]))
        (insertH_clean fs l t k hc h1 (by omega))

theorem validate_eq_renderErr (hs : List (Nat × String))
    (h : ∀ p ∈ hs, 1 ≤ p.1) :
    validate hs = renderErrF 0 [build_tree hs] := by
  have hclean0 : CleanStack 0 [⟨0, "Root", []⟩] := by
    constructor
    · rfl
    · simp [stackErr, frameErr, renderErrF]
  have hfold := validate_fold hs 0 [⟨0, "Root", []⟩] h hclean0
  have hlast : lastLevel (buildStack hs) = some 0 := by
    have : ∀ (l : List (Nat × String)) (fs : List Frame), (∀ p ∈ l, 1 ≤ p.1) →
        lastLevel fs = some 0 →
        lastLevel (l.foldl (fun st p => insertH st p.1 p.2) fs) = some 0 := by
      intro l
      induction l with
      | nil => intro fs _ hf; simpa using hf
      | cons p rest ih =>
        intro fs hl hf
        simp only [List.foldl_cons]
        exact ih _ (fun q hq => hl q (by simp [hq]))
          (insertH_lastLevel fs p.1 p.2 (hl p (by simp)) hf)
    exact this hs _ h (by simp [lastLevel])
  rw [build_tree, collapse_pendErr (buildStack hs) hlast]
  rw [validate]
  exact hfold



/-- C9: for heading sequences with levels in 1..6, the structural
validation pass in `main` records an error iff the render-time pass
over `build_tree` marks at least one node "error", and the page color
computed from the union of both passes' flags equals the color
computed from the render pass alone. -/
theorem C9_validator_render_agree (hs : List (Nat × String))
    (h : ∀ p ∈ hs, 1 ≤ p.1 ∧ p.1 ≤ 6) :
    validate hs = renderPassErr hs ∧ pageReportCss hs = renderOnlyCss hs := by
  have he : validate hs = renderPassErr hs := by
    rw [renderPassErr]
    exact validate_eq_renderErr hs (fun p hp => (h p hp).1)
  refine ⟨he, ?_⟩
  by_cases hemp : hs.isEmpty
  · simp [pageReportCss, pageErrorFlags, mainErrorFlags, renderOnlyCss, hemp]
  · by_cases hr : renderPassErr hs = true
    · simp [pageReportCss, pageErrorFlags, mainErrorFlags, renderOnlyCss,
        hemp, he, hr]
    · simp [pageReportCss, pageErrorFlags, mainErrorFlags, renderOnlyCss,
        hemp, he, hr]

theorem C9_validator_render_agree_w :
    validate [(1, "A"), (3, "B")] = renderPassErr [(1, "A"), (3, "B")] ∧
    pageReportCss [(1, "A"), (3, "B")] = renderOnlyCss [(1, "A"), (3, "B")] :=
  C9_validator_render_agree [(1, "A"), (3, "B")] (by decide)

/-- Exhaustive characterization of one successful loop iteration. -/
theorem crawlStep_inv {env : CrawlEnv} {mp md : Nat} {bd : String}
    {st st' : CrawlState} {evs : List CrawlEvent}
    (h : crawlStep env mp md bd st = some (st', evs)) :
    ∃ url depth rest, st.queue = (url, depth) :: rest ∧
      st.visited.length < mp ∧
      ((md < depth ∧ st' = ⟨st.visited, rest⟩ ∧
          evs = [CrawlEvent.skipDepth url depth]) ∨
       (depth ≤ md ∧ is_allowed env url = false ∧ st' = ⟨st.visited, rest⟩ ∧
          evs = [CrawlEvent.robotsQuery url false]) ∨
       (depth ≤ md ∧ is_allowed env url = true ∧ env.fetch url = none ∧
          st' = ⟨st.visited, rest⟩ ∧
          evs = [CrawlEvent.robotsQuery url true, CrawlEvent.fetchFail url depth]) ∨
       (∃ hrefs, depth ≤ md ∧ is_allowed env url = true ∧
          env.fetch url = some hrefs ∧
          st' = ⟨(hrefs.foldl (processLink url bd depth) (st.visited, rest)).1,
                 (hrefs.foldl (processLink url bd depth) (st.visited, rest)).2⟩ ∧
          evs = [CrawlEvent.robotsQuery url true, CrawlEvent.fetched url depth])) := by
  cases hq : st.queue with
  | nil => simp [crawlStep, hq] at h
  | cons p rest =>
    obtain ⟨url, depth⟩ := p
    simp only [crawlStep, hq] at h
    by_cases h1 : st.visited.length < mp
    · rw [if_pos h1] at h
      refine ⟨url, depth, rest, rfl, h1, ?_⟩
      by_cases h2 : md < depth
      · rw [if_pos h2] at h
        have h' := Option.some.inj h
        rw [Prod.mk.injEq] at h'
        exact Or.inl ⟨h2, h'.1.symm, h'.2.symm⟩
      · rw [if_neg h2] at h
        by_cases h3 : is_allowed env url = true
        · rw [if_pos h3] at h
          cases hf : env.fetch url with
          | none =>
            rw [hf] at h
            have h' := Option.some.inj h
            rw [Prod.mk.injEq] at h'
            exact Or.inr (Or.inr (Or.inl ⟨by omega, h3, rfl,
              h'.1.symm, h'.2.symm⟩))
          | some hrefs =>
            rw [hf] at h
            have h' := Option.some.inj h
            rw [Prod.mk.injEq] at h'
            exact Or.inr (Or.inr (Or.inr ⟨hrefs, by omega, h3, rfl,
              h'.1.symm, h'.2.symm⟩))
        · rw [if_neg h3] at h
          have h' := Option.some.inj h
          rw [Prod.mk.injEq] at h'
          exact Or.inr (Or.inl ⟨by omega, by simpa using h3,
            h'.1.symm, h'.2.symm⟩)
    · rw [if_neg h1] at h
      exact absurd h (by simp)

/-- The loop condition: a step exists iff the queue is nonempty and the
visited set is still below `max_pages`. -/
theorem crawlStep_none_iff (env : CrawlEnv) (mp md : Nat) (bd : String)
    (st : CrawlState) :
    crawlStep env mp md bd st = none ↔
      st.queue = [] ∨ mp ≤ st.visited.length := by
  cases hq : st.queue with
  | nil => simp [crawlStep, hq]
  | cons p rest =>
    obtain ⟨url, depth⟩ := p
    simp only [crawlStep, hq]
    by_cases h1 : st.visited.length < mp
    · rw [if_pos h1]
      simp only [List.cons_ne_nil, false_or]
      constructor
      · intro h
        by_cases h2 : md < depth
        · rw [if_pos h2] at h; exact absurd h (by simp)
        · rw [if_neg h2] at h
          by_cases h3 : is_allowed env url = true
          · rw [if_pos h3] at h
            cases hf : env.fetch url with
            | none => rw [hf] at h; exact absurd h (by simp)
            | some hrefs => rw [hf] at h; exact absurd h (by simp)
          · rw [if_neg h3] at h; exact absurd h (by simp)
      · intro h; omega
    · rw [if_neg h1]
      simp only [List.cons_ne_nil, false_or]
      constructor
      · intro _; omega
      · intro _; trivial

theorem processLink_visited_mono {c b : String} {dep : Nat}
    {acc : List String × List (String × Nat)} {raw u : String}
    (h : u ∈ acc.1) : u ∈ (processLink c b dep acc raw).1 := by
  by_cases hi : is_internal_link (resolveHref c raw) b
  · by_cases hc : normalizedOf (resolveHref c raw) ∈ acc.1
    · simpa [processLink, hi, hc] using h
    · simp only [processLink, hi, if_true]
      rw [if_neg (by simpa using hc)]
      exact List.mem_append_left _ h
  · simpa [processLink, hi] using h

theorem foldl_processLink_visited_mono {c b : String} {dep : Nat}
    (hrefs : List String) :
    ∀ (acc : List String × List (String × Nat)) (u : String), u ∈ acc.1 →
      u ∈ (hrefs.foldl (processLink c b dep) acc).1 := by
  induction hrefs with
  | nil => intro acc u h; simpa using h
  | cons r rest ih =>
    intro acc u h
    simp only [List.foldl_cons]
    exact ih _ u (processLink_visited_mono h)

theorem processLink_visited_length (c b : String) (dep : Nat)
    (acc : List String × List (String × Nat)) (raw : String) :
    (processLink c b dep acc raw).1.length ≤ acc.1.length + 1 := by
  by_cases hi : is_internal_link (resolveHref c raw) b
  · by_cases hc : normalizedOf (resolveHref c raw) ∈ acc.1
    · simp [processLink, hi, hc]
    · simp [processLink, hi, hc]
  · simp [processLink, hi]

theorem foldl_processLink_visited_length (c b : String) (dep : Nat)
    (hrefs : List String) :
    ∀ (acc : List String × List (String × Nat)),
      (hrefs.foldl (processLink c b dep) acc).1.length ≤
        acc.1.length + hrefs.length := by
  induction hrefs with
  | nil => intro acc; simp
  | cons r rest ih =>
    intro acc
    simp only [List.foldl_cons, List.length_cons]
    have h1 := processLink_visited_length c b dep acc r
    have h2 := ih (processLink c b dep acc r)
    omega

/-- One crawl step keeps every previously visited URL visited. -/
theorem crawlStep_visited_mono {env : CrawlEnv} {mp md : Nat} {bd : String}
    {st st' : CrawlState} {evs : List CrawlEvent}
    (h : crawlStep env mp md bd st = some (st', evs)) :
    ∀ u ∈ st.visited, u ∈ st'.visited := by
  intro u hu
  obtain ⟨url, depth, rest, hq, h1, hc⟩ := crawlStep_inv h
  rcases hc with ⟨_, rfl, _⟩ | ⟨_, _, rfl, _⟩ | ⟨_, _, _, rfl, _⟩ |
    ⟨hrefs, _, _, _, rfl, _⟩
  · exact hu
  · exact hu
  · exact hu
  · exact foldl_processLink_visited_mono hrefs _ u hu

theorem crawlRun_visited_mono (env : CrawlEnv) (mp md : Nat) (bd : String) :
    ∀ (fuel : Nat) (st : CrawlState) (u : String), u ∈ st.visited →
      u ∈ (crawlRun env mp md bd fuel st).1.visited := by
  intro fuel
  induction fuel with
  | zero => intro st u h; simpa [crawlRun] using h
  | succ n ih =>
    intro st u h
    rw [crawlRun]
    cases hstep : crawlStep env mp md bd st with
    | none => simpa using h
    | some r =>
      obtain ⟨st', evs⟩ := r
      exact ih st' u (crawlStep_visited_mono hstep u h)



theorem crawlRun_fetched_allowed (env : CrawlEnv) (mp md : Nat) (bd : String) :
    ∀ (fuel : Nat) (st : CrawlState) (u : String) (d : Nat),
      CrawlEvent.fetched u d ∈ (crawlRun env mp md bd fuel st).2.1 →
      is_allowed env u = true ∧ d ≤ md := by
  intro fuel
  induction fuel with
  | zero => intro st u d h; simp [crawlRun] at h
  | succ n ih =>
    intro st u d h
    rw [crawlRun] at h
    cases hstep : crawlStep env mp md bd st with
    | none => rw [hstep] at h; simp at h
    | some r =>
      obtain ⟨st', evs⟩ := r
      rw [hstep] at h
      simp only [List.mem_append] at h
      rcases h with h | h
      · obtain ⟨url, depth, rest, hq, h1, hc⟩ := crawlStep_inv hstep
        rcases hc with ⟨_, _, rfl⟩ | ⟨_, _, _, rfl⟩ | ⟨_, _, _, _, rfl⟩ |
          ⟨hrefs, hdep, hall, _, _, rfl⟩ <;> simp at h
        · obtain ⟨rfl, rfl⟩ := h
          exact ⟨hall, hdep⟩
      · exact ih st' u d h

/-- C7: `is_allowed` fails closed — any failure to fetch/parse the
domain's robots.txt yields `false` — and `crawl_website` never fetches
a URL for which `is_allowed` is false (every fetched URL was allowed). -/
theorem C7_robots_fail_closed :
    (∀ (env : CrawlEnv) (url : String),
      env.robots (robots_url_of url) = none → is_allowed env url = false) ∧
    (∀ (env : CrawlEnv) (base : String) (mp md fuel : Nat) (u : String) (d : Nat),
      CrawlEvent.fetched u d ∈ (crawl_website env base mp md fuel).2.1 →
      is_allowed env u = true) := by
  constructor
  · intro env url h
    simp [is_allowed, h]
  · intro env base mp md fuel u d hm
    exact (crawlRun_fetched_allowed env mp md _ fuel _ u d hm).1

theorem C7_robots_fail_closed_w :
    is_allowed envNoRobots "https://ex.com/a" = false ∧
    is_allowed envTwoLinks "https://ex.com/a" = true :=
  ⟨C7_robots_fail_closed.1 envNoRobots "https://ex.com/a" rfl,
   C7_robots_fail_closed.2 envTwoLinks "https://ex.com/a" 2 5 3
     "https://ex.com/a" 0 (by decide)⟩

/-- C8: an entry dequeued with `depth > max_depth` is discarded
immediately — no robots query, no fetch, the visited set untouched (its
URL stays counted) — no entry beyond `max_depth` is ever fetched, and
the visited set never shrinks across the run. -/
theorem C8_depth_filter :
    (∀ (env : CrawlEnv) (mp md : Nat) (bd : String) (st : CrawlState)
        (u : String) (d : Nat) (rest : List (String × Nat)),
      st.queue = (u, d) :: rest → st.visited.length < mp → md < d →
      crawlStep env mp md bd st =
        some ({ visited := st.visited, queue := rest },
          [CrawlEvent.skipDepth u d])) ∧
    (∀ (env : CrawlEnv) (mp md fuel : Nat) (bd : String) (st : CrawlState)
        (u : String) (d : Nat),
      CrawlEvent.fetched u d ∈ (crawlRun env mp md bd fuel st).2.1 → d ≤ md) ∧
    (∀ (env : CrawlEnv) (mp md fuel : Nat) (bd : String) (st : CrawlState)
        (u : String),
      u ∈ st.visited → u ∈ (crawlRun env mp md bd fuel st).1.visited) := by
  refine ⟨?_, ?_, ?_⟩
  · intro env mp md bd st u d rest hq h1 h2
    simp only [crawlStep, hq]
    rw [if_pos h1, if_pos h2]
  · intro env mp md fuel bd st u d hm
    exact (crawlRun_fetched_allowed env mp md bd fuel st u d hm).2
  · intro env mp md fuel bd st u hm
    exact crawlRun_visited_mono env mp md bd fuel st u hm

theorem C8_depth_filter_w :
    crawlStep envTwoLinks 2 0 "ex.com"
        { visited := ["https://ex.com/a"], queue := [("https://ex.com/b", 1)] } =
      some ({ visited := ["https://ex.com/a"], queue := [] },
        [CrawlEvent.skipDepth "https://ex.com/b" 1]) ∧
    (0 : Nat) ≤ 5 ∧
    "https://ex.com/a" ∈ (crawlRun envTwoLinks 2 5 "ex.com" 3
      { visited := ["https://ex.com/a"], queue := [("https://ex.com/a", 0)] }).1.visited :=
  ⟨C8_depth_filter.1 envTwoLinks 2 0 "ex.com" _ "https://ex.com/b" 1 []
      rfl (by decide) (by decide),
   C8_depth_filter.2.1 envTwoLinks 2 5 3 "ex.com"
      { visited := ["https://ex.com/a"], queue := [("https://ex.com/a", 0)] }
      "https://ex.com/a" 0 (by decide),
   C8_depth_filter.2.2 envTwoLinks 2 5 3 "ex.com"
      { visited := ["https://ex.com/a"], queue := [("https://ex.com/a", 0)] }
      "https://ex.com/a" (by decide)⟩

/-- C10: the seed is inserted verbatim (it is in the returned visited
set as given), and for a seed that is not a fixed point of link
normalization the visited set can hold both the raw seed and its
normalized form, with the underlying resource fetched once per form. -/
theorem C10_seed_verbatim :
    (∀ (env : CrawlEnv) (base : String) (mp md fuel : Nat),
      base ∈ (crawl_website env base mp md fuel).1.visited) ∧
    (normalizeLink "https://ex.com/about/" "https://ex.com/about/" =
        "https://ex.com/about" ∧
      "https://ex.com/about" ≠ "https://ex.com/about/" ∧
      "https://ex.com/about/" ∈
        (crawl_website envSelfLink "https://ex.com/about/" 10 5 4).1.visited ∧
      "https://ex.com/about" ∈
        (crawl_website envSelfLink "https://ex.com/about/" 10 5 4).1.visited ∧
      CrawlEvent.fetched "https://ex.com/about/" 0 ∈
        (crawl_website envSelfLink "https://ex.com/about/" 10 5 4).2.1 ∧
      CrawlEvent.fetched "https://ex.com/about" 1 ∈
        (crawl_website envSelfLink "https://ex.com/about/" 10 5 4).2.1) := by
  constructor
  · intro env base mp md fuel
    exact crawlRun_visited_mono env mp md _ fuel _ base (by simp)
  · refine ⟨by decide, by decide, by decide, by decide, by decide, by decide⟩

/-- C1 counterexample: with `max_pages = 2`, a crawl of a seed page
carrying two internal links ends with three entries in `visited` — the
bound `len(visited) <= max_pages` is violated during link extraction
and still at the end of the run. -/
theorem C1_counterexample :
    (crawl_website envTwoLinks "https://ex.com/a" 2 5 3).1.visited.length = 3 ∧
    ¬ ((crawl_website envTwoLinks "https://ex.com/a" 2 5 3).1.visited.length ≤ 2) := by
  refine ⟨by decide, by decide⟩

/-- C1 amended: `len(visited) < max_pages` holds whenever an iteration
begins, and one iteration grows `visited` by at most the number of
anchors on the fetched page — so mid-extraction and at termination
`len(visited)` can exceed `max_pages` by up to that count. -/
theorem C1_amended_bound (env : CrawlEnv) (mp md : Nat) (bd : String)
    (st st' : CrawlState) (evs : List CrawlEvent)
    (h : crawlStep env mp md bd st = some (st', evs)) :
    st.visited.length < mp ∧
    st'.visited.length ≤ st.visited.length +
      (match st.queue with
       | [] => 0
       | (u, _) :: _ => ((env.fetch u).getD []).length) := by
  obtain ⟨url, depth, rest, hq, h1, hc⟩ := crawlStep_inv h
  refine ⟨h1, ?_⟩
  have hm : (match st.queue with
      | [] => 0
      | (u, _) :: _ => ((env.fetch u).getD []).length) =
      ((env.fetch url).getD []).length := by rw [hq]
  rw [hm]
  rcases hc with ⟨_, rfl, _⟩ | ⟨_, _, rfl, _⟩ | ⟨_, _, _, rfl, _⟩ |
    ⟨hrefs, _, _, hf, rfl, _⟩
  · simp
  · simp
  · simp
  · rw [hf]
    simpa using foldl_processLink_visited_length url bd depth hrefs
      (st.visited, rest)

theorem C1_amended_bound_w :
    (1 : Nat) < 2 ∧
    (crawl_website envTwoLinks "https://ex.com/a" 2 5 1).1.visited.length ≤ 1 + 2 := by
  have h := C1_amended_bound envTwoLinks 2 5 "ex.com"
    { visited := ["https://ex.com/a"], queue := [("https://ex.com/a", 0)] }
    (crawl_website envTwoLinks "https://ex.com/a" 2 5 1).1
    [CrawlEvent.robotsQuery "https://ex.com/a" true,
     CrawlEvent.fetched "https://ex.com/a" 0]
    (by decide)
  exact ⟨h.1, by simpa using h.2⟩

/-- C2 counterexample: with `max_pages = 2` the crawl of
`https://ex.com/a` terminates with `visited` of size 3 and the two
queued entries `("https://ex.com/b",1)`, `("https://ex.com/c",1)`
still in the queue: they are depth-eligible yet are never dequeued,
never robots-checked and never fetched, and the terminal state has a
nonempty queue with `len(visited) ≠ max_pages`. -/
theorem C2_counterexample :
    (crawl_website envTwoLinks "https://ex.com/a" 2 5 3).2.2 = true ∧
    (crawl_website envTwoLinks "https://ex.com/a" 2 5 3).1.queue =
      [("https://ex.com/b", 1), ("https://ex.com/c", 1)] ∧
    (∀ e ∈ (crawl_website envTwoLinks "https://ex.com/a" 2 5 3).2.1,
      e = CrawlEvent.robotsQuery "https://ex.com/a" true ∨
      e = CrawlEvent.fetched "https://ex.com/a" 0) ∧
    (crawl_website envTwoLinks "https://ex.com/a" 2 5 3).1.visited.length ≠ 2 := by
  refine ⟨by decide, by decide, by decide, by decide⟩

/-- C2 amended: the loop exits exactly when, at an iteration boundary,
the queue is empty or `len(visited) ≥ max_pages`; whenever the run
reports termination, the final state satisfies that disjunction —
already-queued entries are abandoned once the bound is reached, not
processed. -/
theorem C2_amended_termination (env : CrawlEnv) (mp md : Nat) (bd : String) :
    (∀ st : CrawlState,
      crawlStep env mp md bd st = none ↔
        st.queue = [] ∨ mp ≤ st.visited.length) ∧
    (∀ (fuel : Nat) (st : CrawlState),
      (crawlRun env mp md bd fuel st).2.2 = true →
      (crawlRun env mp md bd fuel st).1.queue = [] ∨
        mp ≤ (crawlRun env mp md bd fuel st).1.visited.length) := by
  constructor
  · exact crawlStep_none_iff env mp md bd
  · intro fuel
    induction fuel with
    | zero => intro st h; simp [crawlRun] at h
    | succ n ih =>
      intro st h
      rw [crawlRun] at h ⊢
      cases hstep : crawlStep env mp md bd st with
      | none =>
        rw [hstep] at h
        simpa using (crawlStep_none_iff env mp md bd st).mp hstep
      | some r =>
        obtain ⟨st', evs⟩ := r
        rw [hstep] at h
        exact ih st' (by simpa using h)

theorem C2_amended_termination_w :
    (crawlRun envTwoLinks 2 5 "ex.com" 3
      { visited := ["https://ex.com/a"], queue := [("https://ex.com/a", 0)] }).1.queue = [] ∨
    (2 : Nat) ≤ (crawlRun envTwoLinks 2 5 "ex.com" 3
      { visited := ["https://ex.com/a"], queue := [("https://ex.com/a", 0)] }).1.visited.length :=
  (C2_amended_termination envTwoLinks 2 5 "ex.com").2 3
    { visited := ["https://ex.com/a"], queue := [("https://ex.com/a", 0)] }
    (by decide)

theorem splitAtFirst_of_not_contains {d : Char} :
    ∀ l : Chars, l.contains d = false → splitAtFirst d l = none := by
  intro l
  induction l with
  | nil => intro _; rfl
  | cons c cs ih =>
    intro h
    simp only [List.contains_cons, Bool.or_eq_false_iff] at h
    have hc : ¬ c = d := by
      intro hcd
      subst hcd
      simp at h
    rw [splitAtFirst, if_neg hc, ih (by simpa using h.2)]

theorem splitFirst_of_not_contains {d : Char} (l : Chars)
    (h : l.contains d = false) : splitFirst d l = (l, []) := by
  rw [splitFirst, splitAtFirst_of_not_contains l h]

theorem splitAtFirst_append {d : Char} :
    ∀ (s rest : Chars), s.contains d = false →
      splitAtFirst d (s ++ d :: rest) = some (s, rest) := by
  intro s
  induction s with
  | nil => intro rest _; simp [splitAtFirst]
  | cons c cs ih =>
    intro rest h
    simp only [List.contains_cons, Bool.or_eq_false_iff] at h
    have hc : ¬ c = d := by
      intro hcd
      subst hcd
      simp at h
    rw [List.cons_append, splitAtFirst, if_neg hc, ih rest (by simpa using h.2)]

theorem spanNetloc_all_not_delim :
    ∀ n : Chars, (∀ c ∈ n, ¬(c = '/' ∨ c = '?' ∨ c = '#')) →
      spanNetloc n = (n, []) := by
  intro n
  induction n with
  | nil => intro _; rfl
  | cons c cs ih =>
    intro h
    rw [spanNetloc, if_neg (h c (by simp))]
    rw [ih (fun x hx => h x (by simp [hx]))]

theorem rstripSlashC_no_trailing (l : Chars) (h : l.getLast? ≠ some '/') :
    rstripSlashC l = l := by
  rw [rstripSlashC]
  cases hr : l.reverse with
  | nil =>
    have : l = [] := by simpa using congrArg List.reverse hr
    simp [this]
  | cons a as =>
    have ha : a ≠ '/' := by
      have : l.getLast? = some a := by
        rw [← List.head?_reverse, hr]
        rfl
      intro hcd
      exact h (by rw [this, hcd])
    rw [List.dropWhile_cons_of_neg (by simpa using ha)]
    rw [← hr, List.reverse_reverse]

theorem rstripSlashC_append_slash (l : Chars) :
    rstripSlashC (l ++ ['/']) = rstripSlashC l := by
  rw [rstripSlashC, rstripSlashC, List.reverse_append]
  rfl



theorem schemeSplit_default_irrel (url d : Chars)
    (h : (schemeSplit url []).1 ≠ []) :
    schemeSplit url d = schemeSplit url [] := by
  cases hsp : splitAtFirst ':' url with
  | none => simp [schemeSplit, hsp] at h
  | some ab =>
    obtain ⟨a, b⟩ := ab
    by_cases h1 : ((a.head?).getD ' ').isAlpha = true
    · by_cases h2 : ∀ x ∈ a, isSchemeChar x = true
      · simp [schemeSplit, hsp, h1]
        simp [if_pos h2]
      · simp [schemeSplit, hsp, h1, h2] at h
    · simp [schemeSplit, hsp, h1] at h

theorem urlsplitC_default_irrel (url d : Chars)
    (h : (urlsplitC url []).scheme ≠ []) :
    urlsplitC url d = urlsplitC url [] := by
  have hs : (schemeSplit (dropUnsafe (url.dropWhile isC0Space)) []).1 ≠ [] := by
    simpa [urlsplitC] using h
  simp only [urlsplitC]
  rw [show dropUnsafe (stripC0 d) = dropUnsafe (stripC0 d) from rfl]
  rw [schemeSplit_default_irrel _ _ hs]
  rfl

theorem urlparseC_default_irrel (url d : Chars)
    (h : (urlparseC url []).scheme ≠ []) :
    urlparseC url d = urlparseC url [] := by
  have h' : (urlsplitC url []).scheme ≠ [] := by
    simpa [urlparseC] using h
  simp only [urlparseC]
  rw [urlsplitC_default_irrel url d h']

theorem usesRel_sub_usesNet (s : Chars) (h : usesRelative.contains s = true) :
    usesNetloc.contains s = true := by
  have hall : usesRelative.all (fun x => usesNetloc.contains x) = true := by decide
  have hm : s ∈ usesRelative := by simpa using h
  simpa using List.all_eq_true.mp hall s hm



theorem urlunparseC_nice (s n p : Chars) (hs : s ≠ []) (hn : n ≠ [])
    (hp : p = [] ∨ p.headD ' ' = '/') :
    urlunparseC s n p [] [] [] = s ++ ':' :: '/' :: '/' :: (n ++ p) := by
  simp only [urlunparseC, urlunsplitC]
  split_ifs with h1 h2 h3 h4 h5
  · exact absurd rfl h1
  · exact absurd rfl h1
  · exact absurd rfl h1
  · rcases hp with rfl | hp
    · exact absurd rfl h5.1
    · exact absurd hp h5.2
  · rfl
  · exact absurd (Or.inl hn) h4

theorem urljoinC_fixed (base v : Chars)
    (hs : (urlparseC v []).scheme ≠ [])
    (hn : (urlparseC v []).netloc ≠ [])
    (hpm : (urlparseC v []).params = [])
    (hq : (urlparseC v []).query = [])
    (hf : (urlparseC v []).fragment = [])
    (hhead : (urlparseC v []).path = [] ∨ (urlparseC v []).path.headD ' ' = '/')
    (hre : v = (urlparseC v []).scheme ++ ':' :: '/' :: '/' ::
      ((urlparseC v []).netloc ++ (urlparseC v []).path)) :
    urljoinC base v = v := by
  have hv : v ≠ [] := by
    intro hcon
    nth_rewrite 1 [hcon] at hre
    rcases List.append_eq_nil.mp hre.symm with ⟨h1, _⟩
    exact hs h1
  by_cases hb : base = []
  · simp only [urljoinC, if_pos hb]
  · simp only [urljoinC, if_neg hb, if_neg hv]
    rw [urlparseC_default_irrel v (urlparseC base []).scheme hs]
    by_cases hbr : (urlparseC v []).scheme ≠ (urlparseC base []).scheme ∨
        ¬ usesRelative.contains (urlparseC v []).scheme = true
    · rw [if_pos hbr]
    · rw [if_neg hbr]
      push_neg at hbr
      have hnet : usesNetloc.contains (urlparseC v []).scheme = true :=
        usesRel_sub_usesNet _ hbr.2
      rw [if_pos ⟨hnet, hn⟩]
      rw [hpm, hq, hf]
      rw [urlunparseC_nice _ _ _ hs hn hhead]
      exact hre.symm



theorem isAlpha_not_c0 (c : Char) (h : c.isAlpha = true) : isC0Space c = false := by
  simp only [Char.isAlpha, Char.isUpper, Char.isLower, Bool.or_eq_true,
    Bool.and_eq_true, decide_eq_true_eq] at h
  simp only [isC0Space, decide_eq_false_iff_not, Char.toNat]
  rcases h with ⟨h1, _⟩ | ⟨h1, _⟩ <;>
  · have h2 : ((65 : UInt32)).toNat ≤ c.val.toNat ∨
        ((97 : UInt32)).toNat ≤ c.val.toNat := by
      first
        | exact Or.inl h1
        | exact Or.inr h1
    have h3 : ((65 : UInt32)).toNat = 65 := rfl
    have h4 : ((97 : UInt32)).toNat = 97 := rfl
    omega

theorem not_contains_of_all {P : Char → Bool} {d : Char} (hd : P d = false) :
    ∀ l : Chars, l.all P = true → l.contains d = false := by
  intro l hall
  by_cases hc : l.contains d = true
  · have hm : d ∈ l := by simpa using hc
    have := List.all_eq_true.mp hall d hm
    rw [this] at hd
    exact absurd hd (by simp)
  · simpa using hc

theorem all_of_contains_false {d : Char} :
    ∀ l : Chars, l.contains d = false → ∀ c ∈ l, c ≠ d := by
  intro l hl c hc hcd
  subst hcd
  have : l.contains c = true := by simpa using hc
  rw [this] at hl
  exact absurd hl (by simp)

theorem urlsplitC_root (s n : Chars)
    (hs0 : s ≠ []) (hsa : (s.headD ' ').isAlpha = true)
    (hsc : s.all isSchemeChar = true)
    (hlow : s.map Char.toLower = s)
    (hnl : n.contains '/' = false) (hnq : n.contains '?' = false)
    (hnh : n.contains '#' = false)
    (hsu : (s ++ ':' :: '/' :: '/' :: n).all
      (fun c => !(c == '\t' || c == '\r' || c == '\n')) = true) :
    urlsplitC (s ++ ':' :: '/' :: '/' :: n) [] = ⟨s, n, [], [], []⟩ := by
  have hdw : (s ++ ':' :: '/' :: '/' :: n).dropWhile isC0Space =
      s ++ ':' :: '/' :: '/' :: n := by
    cases s with
    | nil => exact absurd rfl hs0
    | cons c s' =>
      rw [List.cons_append, List.dropWhile_cons_of_neg]
      rw [isAlpha_not_c0 c (by simpa using hsa)]
      simp
  have hdu : dropUnsafe (s ++ ':' :: '/' :: '/' :: n) =
      s ++ ':' :: '/' :: '/' :: n := by
    rw [dropUnsafe, List.filter_eq_self]
    intro a ha
    exact List.all_eq_true.mp hsu a ha
  have hcol : s.contains ':' = false :=
    not_contains_of_all (by decide) s hsc
  have hsch : schemeSplit (s ++ ':' :: '/' :: '/' :: n) [] =
      (s, '/' :: '/' :: n) := by
    rw [schemeSplit, splitAtFirst_append s _ hcol]
    show (if (s.headD ' ').isAlpha = true then
        if s.all isSchemeChar = true then (s.map Char.toLower, '/' :: '/' :: n)
        else ([], s ++ ':' :: '/' :: '/' :: n)
      else ([], s ++ ':' :: '/' :: '/' :: n)) = (s, '/' :: '/' :: n)
    rw [if_pos hsa, if_pos hsc, hlow]
  have hnet : netlocSplit ('/' :: '/' :: n) = (n, []) := by
    rw [netlocSplit]
    exact spanNetloc_all_not_delim n (by
      intro c hc hd
      rcases hd with hd | hd | hd
      · exact all_of_contains_false n hnl c hc hd
      · exact all_of_contains_false n hnq c hc hd
      · exact all_of_contains_false n hnh c hc hd)
  simp only [urlsplitC, hdw, hdu]
  rw [show dropUnsafe (stripC0 []) = [] from rfl]
  rw [hsch, hnet]
  rfl

theorem urlparseC_root (s n : Chars)
    (hs0 : s ≠ []) (hsa : (s.headD ' ').isAlpha = true)
    (hsc : s.all isSchemeChar = true)
    (hlow : s.map Char.toLower = s)
    (hnl : n.contains '/' = false) (hnq : n.contains '?' = false)
    (hnh : n.contains '#' = false)
    (hsu : (s ++ ':' :: '/' :: '/' :: n).all
      (fun c => !(c == '\t' || c == '\r' || c == '\n')) = true) :
    urlparseC (s ++ ':' :: '/' :: '/' :: n) [] = ⟨s, n, [], [], [], []⟩ := by
  simp [urlparseC, urlsplitC_root s n hs0 hsa hsc hlow hnl hnq hnh hsu]



theorem contains_false_sub {d : Char} {l sub : Chars}
    (hsub : ∀ c ∈ sub, c ∈ l) (h : l.contains d = false) :
    sub.contains d = false := by
  by_cases hc : sub.contains d = true
  · have : d ∈ l := hsub d (by simpa using hc)
    have : l.contains d = true := by simpa using this
    rw [this] at h
    exact absurd h (by simp)
  · simpa using hc

theorem all_sub {P : Char → Bool} {l sub : Chars}
    (hsub : ∀ c ∈ sub, c ∈ l) (h : l.all P = true) : sub.all P = true := by
  rw [List.all_eq_true]
  intro c hc
  exact List.all_eq_true.mp h c (hsub c hc)

theorem getLast_ne_slash {n : Chars}
    (hnl : n.contains '/' = false) : n.getLast? ≠ some '/' := by
  intro hcon
  have hm : '/' ∈ n := List.mem_of_mem_getLast? hcon
  have : n.contains '/' = true := by simpa using hm
  rw [this] at hnl
  exact absurd hnl (by simp)



theorem normalizeLink_fixed_core (cur : String) (s n p vd : Chars)
    (hparse : urlparseC vd [] = ⟨s, n, p, [], [], []⟩)
    (hre : vd = s ++ ':' :: '/' :: '/' :: (n ++ p))
    (hhash : vd.contains '#' = false)
    (hsu : (vd.all fun c => !(c == '\t' || c == '\r' || c == '\n')) = true)
    (hs : s ≠ []) (hsc : s.all isSchemeChar = true)
    (hsa : (s.headD ' ').isAlpha = true) (hlow : s.map Char.toLower = s)
    (hn : n ≠ []) (hnl : n.contains '/' = false) (hnq : n.contains '?' = false)
    (hpne : p ≠ []) (hphead : p.headD ' ' = '/')
    (hplast : p = ['/'] ∨ p.getLast? ≠ some '/') :
    normalizeLink cur ⟨vd⟩ = ⟨vd⟩ := by
  have hjoin : urljoinC cur.data vd = vd := by
    refine urljoinC_fixed cur.data vd ?_ ?_ ?_ ?_ ?_ ?_ ?_ <;> rw [hparse]
    · exact hs
    · exact hn
    · exact Or.inr hphead
    · exact hre
  have hsf : stripFragmentC vd = vd := by
    rw [stripFragmentC, splitFirst_of_not_contains vd hhash]
  rcases hplast with rfl | hlast
  · have hassoc : vd = (s ++ ':' :: '/' :: '/' :: n) ++ ['/'] := by
      rw [hre]
      simp
    have hAlast : (s ++ ':' :: '/' :: '/' :: n).getLast? ≠ some '/' := by
      rw [show (':' :: '/' :: '/' :: n) = ([':', '/', '/'] ++ n) from rfl,
        ← List.append_assoc, List.getLast?_append_of_ne_nil _ hn]
      exact getLast_ne_slash hnl
    have hstrip : rstripSlashC vd = s ++ ':' :: '/' :: '/' :: n := by
      rw [hassoc, rstripSlashC_append_slash, rstripSlashC_no_trailing _ hAlast]
    have hmemA : ∀ c ∈ s ++ ':' :: '/' :: '/' :: n, c ∈ vd := by
      intro c hc
      rw [hre]
      simp only [List.mem_append, List.mem_cons] at hc ⊢
      tauto
    have hmemN : ∀ c ∈ n, c ∈ vd := by
      intro c hc
      rw [hre]
      simp [hc]
    have hroot' : urlparseC (s ++ ':' :: '/' :: '/' :: n) [] =
        ⟨s, n, [], [], [], []⟩ :=
      urlparseC_root s n hs hsa hsc hlow hnl hnq
        (contains_false_sub hmemN hhash) (all_sub hmemA hsu)
    simp only [normalizeLink, resolveHref]
    rw [hjoin, hsf, hstrip]
    simp [normalizedOf, hroot']
    exact congrArg String.mk hre.symm
  · have hvlast : vd.getLast? = p.getLast? := by
      rw [show vd = (s ++ ':' :: '/' :: '/' :: n) ++ p from by rw [hre]; simp,
        List.getLast?_append_of_ne_nil _ hpne]
    have hstrip : rstripSlashC vd = vd := by
      refine rstripSlashC_no_trailing _ ?_
      rw [hvlast]
      exact hlast
    simp only [normalizeLink, resolveHref]
    rw [hjoin, hsf, hstrip]
    simp [normalizedOf, hparse, hpne]
    exact congrArg String.mk hre.symm

theorem normalizeLink_fixed (cur v : String) (h : goodNormalForm v = true) :
    normalizeLink cur v = v := by
  simp only [goodNormalForm, decide_eq_true_eq] at h
  obtain ⟨hs, hn, hpm, hq, hf, hre, hhash, hsu, hsc, hsa, hlow, hnl, hnq,
    hpne, hphead, hplast⟩ := h
  have hparse : urlparseC v.data [] = ⟨(urlparseC v.data []).scheme,
      (urlparseC v.data []).netloc, (urlparseC v.data []).path,
      (urlparseC v.data []).params, (urlparseC v.data []).query,
      (urlparseC v.data []).fragment⟩ := rfl
  rw [hpm, hq, hf] at hparse
  exact normalizeLink_fixed_core cur _ _ _ v.data hparse hre hhash hsu hs hsc
    hsa hlow hn hnl hnq hpne hphead hplast



/-- C6 counterexample: normalization is not idempotent — for the
href `/a/?q` on page `http://h/x`, the first normalization keeps the
trailing slash of the path (the string ends in `?q`, so `rstrip('/')`
does nothing) while dropping the query, and the second normalization
then strips that slash. -/
theorem C6_counterexample :
    normalizeLink "http://h/x" "/a/?q" = "http://h/a/" ∧
    normalizeLink "http://h/x" (normalizeLink "http://h/x" "/a/?q") =
      "http://h/a" ∧
    normalizeLink "http://h/x" (normalizeLink "http://h/x" "/a/?q") ≠
      normalizeLink "http://h/x" "/a/?q" := by
  refine ⟨by decide, by decide, by decide⟩

/-- C6 amended: normalization is idempotent for every URL whose first
normalization lands in the well-behaved shape `goodNormalForm`
(nonempty scheme and authority, no query/params/fragment residue, and
a path that is `/` or has no trailing slash — which is every http(s)
URL whose pre-query path carries no trailing slash). -/
theorem C6_amended_idempotent (cur u : String)
    (h : goodNormalForm (normalizeLink cur u) = true) :
    normalizeLink cur (normalizeLink cur u) = normalizeLink cur u :=
  normalizeLink_fixed cur (normalizeLink cur u) h

theorem C6_amended_idempotent_w :
    goodNormalForm (normalizeLink "https://ex.com/x" "/about/") = true ∧
    normalizeLink "https://ex.com/x"
        (normalizeLink "https://ex.com/x" "/about/") =
      normalizeLink "https://ex.com/x" "/about/" :=
  ⟨by decide, C6_amended_idempotent "https://ex.com/x" "/about/" (by decide)⟩

end TagCrawler
